import Mathlib

/-!
Shallow embedding of the component registry
(`dist/modules/component/registry.js`) of the bots-node-sdk repository.

JavaScript values relevant to the capability test are modelled by an
inductive `JSVal`; property access on `null`/`undefined` raises a
`TypeError`, modelled by `Except Unit`.  JS `Map`s are modelled by
association lists with `Map.set`/`Map.get` semantics (`mapSet`, `mapGet`),
which preserve insertion order exactly as V8 `Map`s do.  Logging through
`log4js` is modelled by a `List LogEntry` carried in each registry node.
-/

namespace BotsSdk

/-- A metadata descriptor: the record a component's `metadata()` call
returns.  At least a `name` field (the registry key); further fields are
modelled as an opaque association list of strings. -/
structure MetaObj where
  name : String
  fields : List (String × String)
deriving DecidableEq, Repr

instance : Inhabited MetaObj := ⟨⟨"", []⟩⟩

/-- A JavaScript value, as far as the registry inspects one.
`vfn ctor props protoProps ret`: a function value; `ctor` says whether it
is constructible and therefore owns a `.prototype` object (classes and
`function` declarations do, arrow functions do not); `props` are its own
enumerable (assigned) properties, which `Object.values` surfaces;
`protoProps` are the properties of its prototype object; `ret` is the
descriptor the function returns when it is called as a `metadata`
method.  `vobj` is a plain object with its own enumerable properties. -/
inductive JSVal where
  | vnull : JSVal
  | vundefined : JSVal
  | vbool : Bool → JSVal
  | vnum : Int → JSVal
  | vstr : String → JSVal
  | vfn : Bool → List (String × JSVal) → List (String × JSVal) → MetaObj → JSVal
  | vobj : List (String × JSVal) → JSVal
deriving Inhabited

/-- JS `typeof` (note `typeof null === "object"`). -/
def typeofV : JSVal → String
  | .vnull => "object"
  | .vundefined => "undefined"
  | .vbool _ => "boolean"
  | .vnum _ => "number"
  | .vstr _ => "string"
  | .vfn _ _ _ _ => "function"
  | .vobj _ => "object"

/-- `Map.get` / property lookup in an association list: the first binding
of the key, if any. -/
def mapGet (m : List (String × α)) (k : String) : Option α :=
  (m.find? fun p => p.1 = k).map (·.2)

/-- `Map.has`. -/
def mapHas (m : List (String × α)) (k : String) : Bool :=
  m.any fun p => p.1 = k

/-- `Map.set`: replace in place when the key is present (insertion order
kept), append otherwise. -/
def mapSet (m : List (String × α)) (k : String) (v : α) : List (String × α) :=
  if mapHas m k then m.map fun p => if p.1 = k then (k, v) else p
  else m ++ [(k, v)]

/-- JS property access `v[k]`.  Throws a `TypeError` (modelled as
`Except.error ()`) on `null` and `undefined`; a missing property reads as
`undefined`.  On a function value, `"prototype"` yields the prototype
object when the function is constructible and `undefined` otherwise
(arrow functions have no `.prototype`). -/
def getProp (v : JSVal) (k : String) : Except Unit JSVal :=
  match v with
  | .vnull => .error ()
  | .vundefined => .error ()
  | .vobj props => .ok ((mapGet props k).getD .vundefined)
  | .vfn ctor props protoProps _ =>
      .ok (if k = "prototype" then (if ctor then .vobj protoProps else .vundefined)
        else (mapGet props k).getD .vundefined)
  | _ => .ok .vundefined

/-- Modelled from the spec: `isType` is imported from
`common/definitions`, which is not among the sources; the spec's
capability test qualifies "a constructible type whose instances expose
both a `metadata()` operation … and an `invoke(...)` operation", so
`isType` holds exactly of constructible function values. -/
def isType : JSVal → Bool
  | .vfn ctor _ _ _ => ctor
  | _ => false

/-- `isComponent(ref)` — the Capability Test, translated clause for
clause from the source with JS short-circuit evaluation:
`(isType(ref) && isType(ref.prototype.metadata) && isType(ref.prototype.invoke))
 || (typeof ref === 'object' && isType(ref.metadata) && isType(ref.invoke))`.
Property access may throw, hence the `Except`. -/
def isComponentE (ref : JSVal) : Except Unit Bool := do
  let classCase ←
    if isType ref then do
      let proto ← getProp ref "prototype"
      let pm ← getProp proto "metadata"
      if isType pm then do
        let pi ← getProp proto "invoke"
        pure (isType pi)
      else pure false
    else pure false
  if classCase then pure true
  else
    if typeofV ref = "object" then do
      let m ← getProp ref "metadata"
      if isType m then do
        let i ← getProp ref "invoke"
        pure (isType i)
      else pure false
    else pure false

/-- `Object.values`: throws on `null`/`undefined`; own enumerable values
of an object; the own enumerable (assigned) values of a function (its
built-in `name`/`length`/`prototype` are non-enumerable); the characters
of a string; `[]` for the other primitives. -/
def objectValuesE : JSVal → Except Unit (List JSVal)
  | .vnull => .error ()
  | .vundefined => .error ()
  | .vobj props => .ok (props.map (·.2))
  | .vfn _ props _ _ => .ok (props.map (·.2))
  | .vstr s => .ok (s.toList.map fun c => .vstr (String.mk [c]))
  | _ => .ok []

/-- `Array.prototype.filter` with a predicate that may throw (as
`isComponent` does on a `null` element): evaluated left to right, the
first raise aborts the whole filter. -/
def exceptFilter (p : JSVal → Except Unit Bool) : List JSVal → Except Unit (List JSVal)
  | [] => .ok []
  | v :: rest => do
      let b ← p v
      let r ← exceptFilter p rest
      pure (if b then v :: r else r)

/-- The result a stored instance's `metadata()` call produces.  For a
constructible type the instance resolves `metadata` on the prototype; for
a pre-built (legacy) object the wrapper hands the object itself back, so
`metadata` is resolved on its own properties.  `none` means the call
would fault (no such method / not a descriptor-returning function). -/
def callMetadata (v : JSVal) : Option MetaObj :=
  if isType v then
    match v with
    | .vfn _ _ protoProps _ =>
        match mapGet protoProps "metadata" with
        | some (.vfn _ _ _ ret) => some ret
        | _ => none
    | _ => none
  else
    match v with
    | .vobj props =>
        match mapGet props "metadata" with
        | some (.vfn _ _ _ ret) => some ret
        | _ => none
    | _ => none

/-- An instantiated component as the registry stores it: the module value
it was produced from (`new ctor()` for a constructible type, the value
itself through the `LegacyComponentWrapper`) together with the descriptor
its `metadata()` call yields. -/
structure Component where
  source : JSVal
  meta : Option MetaObj

/-- `__componentFactory(mod)`: `makeCtor` followed by `new ctor()`. -/
def componentFactory (mod : JSVal) : Component :=
  { source := mod, meta := callMetadata mod }

/-- One `log4js` record of a registry's logger. -/
inductive LogEntry where
  | warn : String → LogEntry
  | error : String → LogEntry
deriving DecidableEq, Repr

/-- A `ComponentRegistry` node: the `_components` map, the `_collections`
map of child registries, and the records its logger has emitted.  The
`_parent` back-reference of the source is only ever tested for nullness
(never traversed), so it is not part of the node; the nullness test is
the `parent` argument of `assemble` below. -/
inductive Registry where
  | mk : List (String × Component) → List (String × Registry) → List LogEntry → Registry

def Registry.components : Registry → List (String × Component)
  | .mk c _ _ => c

def Registry.collections : Registry → List (String × Registry)
  | .mk _ c _ => c

def Registry.log : Registry → List LogEntry
  | .mk _ _ l => l

/-- `getComponents()` (the live `_components` map). -/
def Registry.getComponents (r : Registry) : List (String × Component) :=
  r.components

/-- `getComponent(name)`. -/
def Registry.getComponent (r : Registry) (name : String) : Option Component :=
  mapGet r.components name

/-- `isComponent(name)` — the instance method (existence of a component). -/
def Registry.isComponent (r : Registry) (name : String) : Bool :=
  mapHas r.components name

/-- `isCollection(name)`. -/
def Registry.isCollection (r : Registry) (name : String) : Bool :=
  mapHas r.collections name

/-- `getCollectionNames()`. -/
def Registry.getCollectionNames (r : Registry) : List String :=
  r.collections.map (·.1)

/-- JS `a || b` over the two `Map` sizes. -/
def jsOrNat (a b : Nat) : Nat :=
  if a ≠ 0 then a else b

/-- `isValid()`: `(this._components.size || this._collections.size) > 0`. -/
def Registry.isValid (r : Registry) : Bool :=
  jsOrNat r.components.length r.collections.length > 0

/-- An optional-argument string is truthy when present and non-empty
(`""` is falsy in JS). -/
def truthyStr : Option String → Bool
  | none => false
  | some s => s ≠ ""

/-- `getRegistry(collection)`:
`collection ? this._collections.get(collection) : this`. -/
def Registry.getRegistry (r : Registry) (collection : Option String) : Option Registry :=
  if truthyStr collection then mapGet r.collections (collection.getD "") else some r

/-- `__register(component)`: read `component.metadata().name`; warn and
drop on a duplicate, insert otherwise.  When `metadata()` cannot produce
a descriptor the source faults inside `__register`; that path is
unreachable from the resolution pipeline (every registered value passed
the capability test, see `callMetadata_isSome_of_isComponent`) and is
outside every verified property, so it is modelled as the identity. -/
def Registry.register (r : Registry) (c : Component) : Registry :=
  match c.meta with
  | none => r
  | some meta =>
      if r.isComponent meta.name then
        .mk r.components r.collections
          (r.log ++ [.warn ("Duplicate component found: " ++ meta.name)])
      else
        .mk (mapSet r.components meta.name c) r.collections r.log

/-- `forEach(component => this.__register(component))`. -/
def Registry.registerAll (r : Registry) (cs : List Component) : Registry :=
  cs.foldl Registry.register r

/-- One iteration of `merge`'s `forEach`: register the component here,
and when `recursive` also register it into every current child
collection. -/
def Registry.mergeStep (recursive : Bool) (acc : Registry) (p : String × Component) :
    Registry :=
  let acc1 := acc.register p.2
  if recursive then
    .mk acc1.components (acc1.collections.map fun q => (q.1, q.2.register p.2)) acc1.log
  else acc1

/-- `merge(registry, recursive)`: iterate the source registry's flat
component map in order. -/
def Registry.merge (a : Registry) (b : Registry) (recursive : Bool) : Registry :=
  b.components.foldl (Registry.mergeStep recursive) a

/-! ## Filesystem model

The scan operates on a tree of directories and files.  Loading a file
(`require`) either raises during module initialization or produces the
module's primary exported value, so a file carries an
`Except Unit JSVal`.  Paths are strings as in the source; `path.join`,
`path.basename` and `path.extname` are modelled on `/`-separated
segments, and `path.resolve` of an already-assembled absolute path is the
identity. -/

inductive FsNode where
  | file : Except Unit JSVal → FsNode
  | dir : List (String × FsNode) → FsNode

/-- `fs.statSync(p).isDirectory()`. -/
def FsNode.isDir : FsNode → Bool
  | .dir _ => true
  | .file _ => false

/-- Split a character list at `/` (the accumulator holds the current
segment, reversed). -/
def splitSegs : List Char → List Char → List String
  | [], acc => [String.mk acc.reverse]
  | c :: rest, acc =>
      if c = '/' then String.mk acc.reverse :: splitSegs rest []
      else splitSegs rest (c :: acc)

def splitPath (p : String) : List String :=
  (splitSegs p.toList []).filter fun s => s ≠ ""

def pathJoin (a b : String) : String :=
  a ++ "/" ++ b

/-- `path.basename`: the last path segment. -/
def basename (p : String) : String :=
  ((splitPath p).getLast?).getD p

/-- `path.extname`: the suffix from the last dot on, `""` when there is
no dot or the only dot leads the name (dotfiles). -/
def extname (s : String) : String :=
  let cs := s.toList
  match ((List.range cs.length).filter fun i => cs.getD i ' ' = '.').getLast? with
  | none => ""
  | some 0 => ""
  | some i => String.mk (cs.drop i)

/-- `~['', '.js'].indexOf(path.extname(name))`: keep directories,
extensionless files and `.js` files. -/
def extOK (name : String) : Bool :=
  ["", ".js"].contains (extname name)

def charsPrefixOf : List Char → List Char → Bool
  | [], _ => true
  | _ :: _, [] => false
  | a :: as, b :: bs => a = b && charsPrefixOf as bs

def charSuffixes : List Char → List (List Char)
  | [] => [[]]
  | c :: r => (c :: r) :: charSuffixes r

/-- `str.indexOf(sub) >= 0`: substring occurrence anywhere. -/
def jsContains (s sub : String) : Bool :=
  (charSuffixes s.toList).any fun t => charsPrefixOf sub.toList t

/-- `fullPath(cwd, dirname)`:
`~dirname.indexOf(cwd) ? dirname : path.join(cwd, dirname)` — the string
is kept as-is whenever it merely *contains* `cwd` as a substring. -/
def fullPath (cwd dirname : String) : String :=
  if jsContains dirname cwd then dirname else pathJoin cwd dirname

/-- Resolve a path's segments in the tree. -/
def lookupSegs : FsNode → List String → Option FsNode
  | node, [] => some node
  | .file _, _ :: _ => none
  | .dir es, s :: rest =>
      match mapGet es s with
      | some n => lookupSegs n rest
      | none => none

/-- `fs.existsSync` / `fs.statSync` combined: the node at a path. -/
def lookupPath (fs : FsNode) (p : String) : Option FsNode :=
  lookupSegs fs (splitPath p)

/-- `__resolveComponents(filePath)`, around an already-modelled
`require` outcome: the whole body sits in one `try`; on success, the
primary export if it passes the capability test, else the object's
values filtered by it; any raise (during load, or from the test itself)
is caught and logged and contributes nothing. -/
def resolveComponents (mod : Except Unit JSVal) : List JSVal × List LogEntry :=
  match (do
      let m ← mod
      let c ← isComponentE m
      if c then pure [m]
      else do
        let vs ← objectValuesE m
        exceptFilter isComponentE vs) with
  | .ok l => (l, [])
  | .error _ => ([], [LogEntry.error "component load failed"])

/-- What one scan step contributes to the registry under construction:
components to register (in order), collections added through
`_addCollection`, and log records emitted along the way. -/
structure ScanOut where
  comps : List Component
  colls : List (String × Registry)
  log : List LogEntry

def ScanOut.empty : ScanOut := ⟨[], [], []⟩

def scanAppend (a b : ScanOut) : ScanOut :=
  ⟨a.comps ++ b.comps, a.colls ++ b.colls, a.log ++ b.log⟩

/-- The entry order of `__scanDir`'s sort,
`.sort((a, b) => fs.statSync(a).isDirectory() ? 1 : 0)`: plain files
first (stable), directories after. -/
def filesFirst (entries : List (String × FsNode)) : List (String × FsNode) :=
  (entries.filter fun e => !(e.2.isDir)) ++ (entries.filter fun e => e.2.isDir)

/-- Close a scan's contributions into a registry node: collections were
attached during the scan (`Map.set` per `_addCollection`), scan-time log
records precede registration warnings, and components are registered in
scan order. -/
def registryOfScan (s : ScanOut) : Registry :=
  Registry.registerAll
    (.mk [] (s.colls.foldl (fun m p => mapSet m p.1 p.2) []) s.log) s.comps

theorem sizeOf_list_append {α : Type} [SizeOf α] (l₁ l₂ : List α) :
    sizeOf (l₁ ++ l₂) + 1 = sizeOf l₁ + sizeOf l₂ := by
  induction l₁ with
  | nil => simp; omega
  | cons a t ih => simp only [List.cons_append, List.cons.sizeOf_spec]; omega

theorem sizeOf_filter_split (l : List (String × FsNode)) :
    sizeOf (l.filter fun e => !(e.2.isDir)) + sizeOf (l.filter fun e => e.2.isDir)
      = sizeOf l + 1 := by
  induction l with
  | nil => simp
  | cons a t ih => cases h : a.2.isDir <;> simp [List.filter_cons, h] <;> omega

theorem sizeOf_filesFirst (l : List (String × FsNode)) :
    sizeOf (filesFirst l) = sizeOf l := by
  have h1 := sizeOf_list_append
    (l.filter fun e => !(e.2.isDir)) (l.filter fun e => e.2.isDir)
  have h2 := sizeOf_filter_split l
  simp only [filesFirst]
  omega

theorem sizeOf_filter_le {α : Type} [SizeOf α] (q : α → Bool) (l : List α) :
    sizeOf (l.filter q) ≤ sizeOf l := by
  induction l with
  | nil => simp
  | cons a t ih =>
      cases h : q a <;> simp [List.filter_cons, h] <;> omega

mutual

/-- `__digestPath(filePath, withCollections)` on an entry that exists: a
file's module is resolved into instantiated components; a directory
becomes a named collection when grouping is on (`_addCollection`, whose
nested `assemble(this, subdir)` scans the subdirectory with grouping
off), and is scanned and flattened into the current node when grouping
is off. -/
def digestFs (name : String) (node : FsNode) (withColl : Bool) : ScanOut :=
  match node with
  | .file mod =>
      let r := resolveComponents mod
      ⟨r.1.map componentFactory, [], r.2⟩
  | .dir es =>
      if withColl then ⟨[], [(name, registryOfScan (scanEntries es false))], []⟩
      else scanEntries es false
termination_by (sizeOf node, 2)

/-- `__scanDir(dir, withCollections)`: keep entries whose extension is
empty or `.js`, order files before directories, digest each and flatten
the results. -/
def scanEntries (entries : List (String × FsNode)) (withColl : Bool) : ScanOut :=
  digestList (filesFirst (entries.filter fun e => extOK e.1)) withColl
termination_by (sizeOf entries, 1)
decreasing_by
  have hle : sizeOf (filesFirst (entries.filter fun e => extOK e.1)) ≤ sizeOf entries := by
    rw [sizeOf_filesFirst]
    exact sizeOf_filter_le _ _
  rcases eq_or_lt_of_le hle with h | h
  · exact h ▸ Prod.Lex.right _ (by omega)
  · exact Prod.Lex.left _ _ h

/-- The per-entry fold of `__scanDir`'s `.map` and flatten. -/
def digestList (entries : List (String × FsNode)) (withColl : Bool) : ScanOut :=
  match entries with
  | [] => ScanOut.empty
  | e :: rest => scanAppend (digestFs e.1 e.2 withColl) (digestList rest withColl)
termination_by (sizeOf entries, 0)
decreasing_by
  · simp_wf
    refine Prod.Lex.left _ _ ?_
    obtain ⟨n, nd⟩ := e
    simp only [List.cons.sizeOf_spec, Prod.mk.sizeOf_spec]
    omega
  · simp_wf
    exact Prod.Lex.left _ _ (by omega)

end

/-- `__buildFromFs(baseDir, withCollections)`: a missing directory is a
logged error and an empty node, not a fault; a path that names a plain
file would make `readdirSync` raise (the `Except.error`); otherwise the
directory is scanned and every produced component registered. -/
def buildFromFs (fs : FsNode) (baseDir : String) (withCollections : Bool) :
    Except Unit Registry :=
  match lookupPath fs baseDir with
  | some (.dir es) => .ok (registryOfScan (scanEntries es withCollections))
  | some (.file _) => .error ()
  | none => .ok (.mk [] [] [.error ("Invalid component directory " ++ baseDir)])

/-- `ComponentRegistry.assemble(parent, componentDir, cwd)`: resolve the
directory with `fullPath` and build from the filesystem; collection
grouping is `!parent`.  The parent registry is only ever tested for
nullness, so it is passed as `Option Unit`. -/
def assemble (parent : Option Unit) (fs : FsNode) (componentDir : String)
    (cwd : String) : Except Unit Registry :=
  buildFromFs fs (fullPath cwd componentDir) parent.isNone

/-- `__digestPath` as reached from `__buildFromItems` with a string item:
when the bare path does not exist `.js` is appended; when neither
exists, `statSync` raises. -/
def digestPathStr (fs : FsNode) (p : String) (withColl : Bool) :
    Except Unit ScanOut :=
  match lookupPath fs p with
  | some node => .ok (digestFs (basename p) node withColl)
  | none =>
      match lookupPath fs (p ++ ".js") with
      | some node => .ok (digestFs (basename (p ++ ".js")) node withColl)
      | none => .error ()

/-- The per-item resolution of `__buildFromItems`: an item is, in order,
tried as a component reference, as an object whose values may contain
components, or as a path string delegated to `__digestPath` with
collection grouping disabled; any other shape contributes nothing. -/
def digestItem (fs : FsNode) (baseDir : String) (item : JSVal) :
    Except Unit ScanOut := do
  let c ← isComponentE item
  if c then pure (⟨[componentFactory item], [], []⟩ : ScanOut)
  else
    match item with
    | .vobj props => do
        let cs ← exceptFilter isComponentE (props.map (·.2))
        pure (⟨cs.map componentFactory, [], []⟩ : ScanOut)
    | .vstr s => digestPathStr fs (fullPath baseDir s) false
    | _ => pure ScanOut.empty

/-- The `list.map(item => …)` of `__buildFromItems`: items resolved left
to right, a raise from any item aborting the whole build. -/
def mapExcept (f : JSVal → Except Unit ScanOut) : List JSVal → Except Unit (List ScanOut)
  | [] => .ok []
  | a :: t => do
      let s ← f a
      let rest ← mapExcept f t
      pure (s :: rest)

/-- `__buildFromItems(list, baseDir)`: resolve each item, flatten the
results in order and register them into a fresh node. -/
def buildFromItems (fs : FsNode) (list : List JSVal) (baseDir : String) :
    Except Unit Registry := do
  let results ← mapExcept (digestItem fs baseDir) list
  pure (registryOfScan (results.foldl scanAppend ScanOut.empty))

/-- `ComponentRegistry.create(components, cwd)`. -/
def create (fs : FsNode) (components : List JSVal) (cwd : String) :
    Except Unit Registry :=
  buildFromItems fs components cwd

/-! ## Reference-level model of `getMetadata`

`getMetadata` must return *copies* of the stored descriptors
(`meta.push(Object.assign({}, component.metadata()))`), so that callers
cannot mutate a stored descriptor through the returned array.  Stating
that is an aliasing property, so descriptors live in an explicit heap
(`List MetaObj`, addresses are indices): a stored component's
`metadata()` call returns the reference `metaAddr`, and `Object.assign`
allocates a fresh cell with the same record. -/

structure HComponent where
  metaAddr : Nat

inductive HRegistry where
  | mk : List (String × HComponent) → List (String × HRegistry) → HRegistry

def HRegistry.components : HRegistry → List (String × HComponent)
  | .mk c _ => c

def HRegistry.collections : HRegistry → List (String × HRegistry)
  | .mk _ c => c

/-- `getRegistry(collection)` on the heap-level registry. -/
def HRegistry.getRegistry (r : HRegistry) (collection : Option String) :
    Option HRegistry :=
  if truthyStr collection then mapGet r.collections (collection.getD "") else some r

/-- The `forEach` push loop of `getMetadata`: for each component a fresh
cell is allocated holding a copy of the record its `metadata()` call
references.  Returns the pushed addresses in order and the grown heap. -/
def allocCopies : List (String × HComponent) → List MetaObj → List Nat × List MetaObj
  | [], σ => ([], σ)
  | c :: rest, σ =>
      let a := σ.length
      let σ1 := σ ++ [σ.getD c.2.metaAddr default]
      let p := allocCopies rest σ1
      (a :: p.1, p.2)

/-- `getMetadata(collection)`: resolve the target registry (`this` when
no truthy name is given); when resolution fails, log an error and return
an empty array; otherwise push a copy of every component's metadata.
Result: the returned array (as heap addresses), the heap afterwards, and
the log records emitted. -/
def HRegistry.getMetadata (r : HRegistry) (collection : Option String)
    (σ : List MetaObj) : List Nat × List MetaObj × List LogEntry :=
  match r.getRegistry collection with
  | some reg =>
      let p := allocCopies reg.components σ
      (p.1, p.2, [])
  | none => ([], σ, [LogEntry.error ("Invalid registry requested " ++ collection.getD "")])

/-! ## Definitions used to state the claims -/

/-- The key a component registers under (its `metadata().name`). -/
def metaName (c : Component) : String :=
  (c.meta.getD default).name

/-- Whether a property map exposes `k` as an operation (`isType` of the
property, a missing property reading as `undefined`). -/
def hasOp (props : List (String × JSVal)) (k : String) : Bool :=
  match mapGet props k with
  | some f => isType f
  | none => false

/-- The spec's wording of the Capability Test (§4.1), as a total
predicate: a constructible type whose instances expose both a
`metadata()` and an `invoke(...)` operation, or an object directly
exposing both operations. -/
def qualifies : JSVal → Bool
  | .vfn true _ protoProps _ => hasOp protoProps "metadata" && hasOp protoProps "invoke"
  | .vobj props => hasOp props "metadata" && hasOp props "invoke"
  | _ => false

/-- Modelled from the spec: the claimed path rule for string items —
"resolve it as a filesystem path relative to the base directory unless
it already lies under that directory", with *lies under* read as: the
string starts with the base directory. -/
def fullPathSpec (cwd dirname : String) : String :=
  if charsPrefixOf cwd.toList dirname.toList then dirname else pathJoin cwd dirname

/-- A well-formed component class: constructible, with prototype
`metadata` returning the descriptor `⟨nm, [("tag", tag)]⟩` and a
prototype `invoke`. -/
def sampleComponent (nm tag : String) : JSVal :=
  .vfn true []
    [("metadata", .vfn true [] [] ⟨nm, [("tag", tag)]⟩), ("invoke", .vfn true [] [] default)]
    default

/-- The descriptor values a caller observes in the array
`getMetadata()` returns: each returned reference, read in the heap the
call produced. -/
def readVals (r : HRegistry) (σ : List MetaObj) : List MetaObj :=
  ((r.getMetadata none σ).1).map fun a => ((r.getMetadata none σ).2.1).getD a default

/-! ## Association-list map lemmas -/

theorem mapGet_eq_none_of_not_mapHas {m : List (String × α)} {k : String}
    (h : mapHas m k = false) : mapGet m k = none := by
  induction m with
  | nil => rfl
  | cons p t ih =>
      rw [mapHas, List.any_cons, Bool.or_eq_false_iff] at h
      rw [mapGet, List.find?, h.1]
      exact ih (by rw [mapHas]; exact h.2)

theorem mapGet_replace_self {k : String} (v : α) :
    ∀ m : List (String × α), mapHas m k = true →
      mapGet (m.map fun p => if p.1 = k then (k, v) else p) k = some v := by
  intro m
  induction m with
  | nil => intro h; simp [mapHas] at h
  | cons p t ih =>
      intro h
      rw [List.map_cons]
      by_cases hp : p.1 = k
      · simp [mapGet, hp]
      · rw [if_neg hp, mapGet, List.find?]
        rw [show (decide (p.1 = k)) = false by simp [hp]]
        have ht : mapHas t k = true := by
          rw [mapHas, List.any_cons, Bool.or_eq_true] at h
          rcases h with h | h
          · exact absurd (of_decide_eq_true h) hp
          · exact h
        exact ih ht

theorem mapGet_append_self {k : String} (v : α) :
    ∀ m : List (String × α), mapHas m k = false →
      mapGet (m ++ [(k, v)]) k = some v := by
  intro m
  induction m with
  | nil => intro _; simp [mapGet]
  | cons p t ih =>
      intro h
      rw [mapHas, List.any_cons, Bool.or_eq_false_iff] at h
      rw [List.cons_append, mapGet, List.find?, h.1]
      exact ih h.2

theorem mapGet_mapSet_self (m : List (String × α)) (k : String) (v : α) :
    mapGet (mapSet m k v) k = some v := by
  rw [mapSet]
  by_cases h : mapHas m k = true
  · rw [if_pos h]
    exact mapGet_replace_self v m h
  · rw [if_neg h]
    exact mapGet_append_self v m (by simpa using h)

theorem mapHas_mapSet_self (m : List (String × α)) (k : String) (v : α) :
    mapHas (mapSet m k v) k = true := by
  have h := mapGet_mapSet_self m k v
  by_contra hc
  rw [mapGet_eq_none_of_not_mapHas (by simpa using hc)] at h
  exact Option.noConfusion h

theorem length_mapSet_of_not_mapHas {m : List (String × α)} {k : String} (v : α)
    (h : mapHas m k = false) : (mapSet m k v).length = m.length + 1 := by
  rw [mapSet, if_neg (by simp [h])]
  simp

theorem mem_mapSet {m : List (String × α)} {k : String} {v : α} {p : String × α}
    (h : p ∈ mapSet m k v) : p ∈ m ∨ p.2 = v := by
  rw [mapSet] at h
  by_cases hm : mapHas m k = true
  · rw [if_pos hm] at h
    rw [List.mem_map] at h
    obtain ⟨q, hq, he⟩ := h
    by_cases hqk : q.1 = k
    · rw [if_pos hqk] at he
      right; rw [← he]
    · rw [if_neg hqk] at he
      left; rwa [← he]
  · rw [if_neg hm, List.mem_append, List.mem_singleton] at h
    rcases h with h | h
    · left; exact h
    · right; rw [h]

theorem mem_foldl_mapSet {l : List (String × α)} :
    ∀ {m0 : List (String × α)} {p : String × α},
      p ∈ l.foldl (fun m q => mapSet m q.1 q.2) m0 → p ∈ m0 ∨ p.2 ∈ l.map (·.2) := by
  induction l with
  | nil => intro m0 p h; exact Or.inl h
  | cons x t ih =>
      intro m0 p h
      rw [List.foldl_cons] at h
      rcases ih h with h1 | h1
      · rcases mem_mapSet h1 with h2 | h2
        · exact Or.inl h2
        · exact Or.inr (by simp [h2])
      · exact Or.inr (by rw [List.map_cons, List.mem_cons]; right; exact h1)

/-! ## Registration lemmas -/

theorem register_collections (r : Registry) (c : Component) :
    (r.register c).collections = r.collections := by
  rcases r with ⟨comps, colls, lg⟩
  rcases c with ⟨src, meta⟩
  cases meta with
  | none => rfl
  | some m =>
      by_cases h : Registry.isComponent ⟨comps, colls, lg⟩ m.name <;>
        simp [Registry.register, h, Registry.collections]

theorem registerAll_collections (cs : List Component) :
    ∀ r : Registry, (r.registerAll cs).collections = r.collections := by
  induction cs with
  | nil => intro r; rfl
  | cons c t ih =>
      intro r
      rw [Registry.registerAll, List.foldl_cons]
      rw [show (List.foldl Registry.register (r.register c) t) = (r.register c).registerAll t
          from rfl]
      rw [ih, register_collections]

theorem registryOfScan_collections (s : ScanOut) :
    (registryOfScan s).collections
      = s.colls.foldl (fun m p => mapSet m p.1 p.2) [] := by
  rw [registryOfScan, registerAll_collections]
  rfl

/-! ## Evaluation of the capability test, constructor by constructor -/

theorem isType_vfn (c : Bool) (ps pp : List (String × JSVal)) (r : MetaObj) :
    isType (.vfn c ps pp r) = c := rfl

theorem isType_vundefined : isType .vundefined = false := rfl

theorem isType_vobj (props : List (String × JSVal)) : isType (.vobj props) = false := rfl

theorem isComponentE_vnull : isComponentE .vnull = .error () := rfl

theorem isComponentE_vundefined : isComponentE .vundefined = .ok false := rfl

theorem isComponentE_vbool (b : Bool) : isComponentE (.vbool b) = .ok false := rfl

theorem isComponentE_vnum (n : Int) : isComponentE (.vnum n) = .ok false := rfl

theorem isComponentE_vstr (s : String) : isComponentE (.vstr s) = .ok false := rfl

theorem isComponentE_arrow (ps pp : List (String × JSVal)) (r : MetaObj) :
    isComponentE (.vfn false ps pp r) = .ok false := rfl

theorem isComponentE_class (ps pp : List (String × JSVal)) (r : MetaObj) :
    isComponentE (.vfn true ps pp r) = .ok (hasOp pp "metadata" && hasOp pp "invoke") := by
  cases hm : mapGet pp "metadata" with
  | none => simp [isComponentE, getProp, typeofV, hm, isType_vfn, isType_vundefined, hasOp,
      Bind.bind, Except.bind, pure, Except.pure]
  | some f =>
      cases hf : isType f with
      | false => simp [isComponentE, getProp, typeofV, hm, hf, isType_vfn, hasOp,
          Bind.bind, Except.bind, pure, Except.pure]
      | true =>
          cases hi : mapGet pp "invoke" with
          | none => simp [isComponentE, getProp, typeofV, hm, hf, hi, isType_vfn,
              isType_vundefined, hasOp, Bind.bind, Except.bind, pure, Except.pure]
          | some g =>
              cases hg : isType g <;>
                simp [isComponentE, getProp, typeofV, hm, hf, hi, hg, isType_vfn, hasOp,
                  Bind.bind, Except.bind, pure, Except.pure]

theorem isComponentE_vobj (props : List (String × JSVal)) :
    isComponentE (.vobj props) = .ok (hasOp props "metadata" && hasOp props "invoke") := by
  cases hm : mapGet props "metadata" with
  | none => simp [isComponentE, getProp, typeofV, hm, isType_vfn, isType_vundefined, isType_vobj,
      hasOp, Bind.bind, Except.bind, pure, Except.pure]
  | some f =>
      cases hf : isType f with
      | false => simp [isComponentE, getProp, typeofV, hm, hf, isType_vfn, isType_vobj, hasOp,
          Bind.bind, Except.bind, pure, Except.pure]
      | true =>
          cases hi : mapGet props "invoke" with
          | none => simp [isComponentE, getProp, typeofV, hm, hf, hi, isType_vfn,
              isType_vundefined, isType_vobj, hasOp, Bind.bind, Except.bind, pure, Except.pure]
          | some g =>
              cases hg : isType g <;>
                simp [isComponentE, getProp, typeofV, hm, hf, hi, hg, isType_vfn, isType_vobj,
                  hasOp, Bind.bind, Except.bind, pure, Except.pure]

/-- A value the capability test accepts has a resolvable `metadata()`:
the fault branch of `__register` is never taken for components produced
by the resolution pipeline. -/
theorem callMetadata_isSome_of_isComponent {v : JSVal}
    (h : isComponentE v = .ok true) : (callMetadata v).isSome := by
  cases v with
  | vnull => exact absurd h (by rw [isComponentE_vnull]; intro hc; exact Except.noConfusion hc)
  | vundefined => rw [isComponentE_vundefined] at h; simp at h
  | vbool b => rw [isComponentE_vbool] at h; simp at h
  | vnum n => rw [isComponentE_vnum] at h; simp at h
  | vstr s => rw [isComponentE_vstr] at h; simp at h
  | vobj props =>
      rw [isComponentE_vobj] at h
      have hops : hasOp props "metadata" = true := by
        rcases Bool.and_eq_true .. |>.mp (by simpa using h) with ⟨h1, _⟩
        exact h1
      rw [hasOp] at hops
      rcases hm : mapGet props "metadata" with _ | f
      · rw [hm] at hops; simp at hops
      · rw [hm] at hops
        cases f with
        | vfn ctor ps pp ret =>
            cases ctor with
            | true => simp [callMetadata, isType, hm]
            | false => simp [isType] at hops
        | vnull => simp [isType] at hops
        | vundefined => simp [isType] at hops
        | vbool b => simp [isType] at hops
        | vnum n => simp [isType] at hops
        | vstr s => simp [isType] at hops
        | vobj pp => simp [isType] at hops
  | vfn ctor ownProps protoProps ret =>
      cases ctor with
      | false => rw [isComponentE_arrow] at h; simp at h
      | true =>
          rw [isComponentE_class] at h
          have hops : hasOp protoProps "metadata" = true := by
            rcases Bool.and_eq_true .. |>.mp (by simpa using h) with ⟨h1, _⟩
            exact h1
          rw [hasOp] at hops
          rcases hm : mapGet protoProps "metadata" with _ | f
          · rw [hm] at hops; simp at hops
          · rw [hm] at hops
            cases f with
            | vfn c2 ps2 pp2 r2 =>
                cases c2 with
                | true => simp [callMetadata, isType, hm]
                | false => simp [isType] at hops
            | vnull => simp [isType] at hops
            | vundefined => simp [isType] at hops
            | vbool b => simp [isType] at hops
            | vnum n => simp [isType] at hops
            | vstr s => simp [isType] at hops
            | vobj pp => simp [isType] at hops

/-! ## Registration: dedup -/

theorem mapHas_append_self (m : List (String × α)) (k : String) (v : α) :
    mapHas (m ++ [(k, v)]) k = true := by
  rw [mapHas, List.any_append]
  simp [mapHas]

theorem register_fresh {r : Registry} {c : Component} {m : MetaObj}
    (hm : c.meta = some m) (hf : r.isComponent m.name = false) :
    r.register c = .mk (r.components ++ [(m.name, c)]) r.collections r.log := by
  simp only [Registry.register, hm]
  rw [if_neg (by simp [hf]), mapSet, if_neg (by simp [Registry.isComponent] at hf; simp [hf])]

theorem register_dup {r : Registry} {c : Component} {m : MetaObj}
    (hm : c.meta = some m) (hd : r.isComponent m.name = true) :
    r.register c
      = .mk r.components r.collections
          (r.log ++ [.warn ("Duplicate component found: " ++ m.name)]) := by
  simp only [Registry.register, hm]
  rw [if_pos hd]

/-- C1: registering a component A named `x` and then a component B also
named `x` into the same registry node leaves `getComponent x` returning
A, appends a duplicate warning for B's rejection, and leaves the number
of components unchanged by B — first successful registration wins. -/
theorem register_duplicate_first_wins (r : Registry) (A B : Component)
    (mA mB : MetaObj) (x : String)
    (hA : A.meta = some mA) (hB : B.meta = some mB)
    (hxA : mA.name = x) (hxB : mB.name = x)
    (hfresh : r.isComponent x = false) :
    ((r.register A).register B).getComponent x = some A ∧
    (r.register A).getComponent x = some A ∧
    ((r.register A).register B).components.length = (r.register A).components.length ∧
    ((r.register A).register B).log
      = (r.register A).log ++ [.warn ("Duplicate component found: " ++ x)] := by
  subst hxA
  have h1 := register_fresh hA hfresh
  have hdup : (r.register A).isComponent mB.name = true := by
    rw [h1, hxB]
    show mapHas (r.components ++ [(mA.name, A)]) mA.name = true
    exact mapHas_append_self _ _ _
  have h2 := register_dup hB hdup
  have hget : (r.register A).getComponent mA.name = some A := by
    rw [h1]
    show mapGet (r.components ++ [(mA.name, A)]) mA.name = some A
    exact mapGet_append_self A r.components hfresh
  refine ⟨?_, hget, ?_, ?_⟩
  · rw [h2]
    show (Registry.mk (r.register A).components (r.register A).collections _).getComponent _
        = some A
    rw [Registry.getComponent]
    show mapGet (r.register A).components mA.name = some A
    exact hget
  · rw [h2]
    rfl
  · rw [h2, hxB]
    rfl

/-- C1 witness: two components both named `"x"` into an empty node. -/
theorem register_duplicate_first_wins_witness :
    ((((Registry.mk [] [] []).register
          (componentFactory (sampleComponent "x" "first"))).register
        (componentFactory (sampleComponent "x" "second"))).getComponent "x"
      = some (componentFactory (sampleComponent "x" "first"))) ∧
    (((Registry.mk [] [] []).register
          (componentFactory (sampleComponent "x" "first"))).register
        (componentFactory (sampleComponent "x" "second"))).log
      = [.warn ("Duplicate component found: " ++ "x")] := by
  have h := register_duplicate_first_wins (Registry.mk [] [] [])
    (componentFactory (sampleComponent "x" "first"))
    (componentFactory (sampleComponent "x" "second"))
    ⟨"x", [("tag", "first")]⟩ ⟨"x", [("tag", "second")]⟩ "x" rfl rfl rfl rfl rfl
  exact ⟨h.1, by rw [h.2.2.2]; rfl⟩

/-! ## The capability test on arbitrary values (claim C4) -/

/-- C4 counterexample: the Capability Test does *not* return a boolean on
every input — on `null` the legacy clause evaluates
`typeof null === 'object'` to true and then reads `null.metadata`, which
raises a TypeError. -/
theorem capability_test_null_raises : isComponentE .vnull = .error () := rfl

/-- C4 (amended): on every input other than `null` the Capability Test
returns a boolean without throwing (and, being a pure function of its
argument, without side effects), and the boolean is exactly the spec's
qualification predicate — in particular `false` on every value that is
neither a constructible type whose instances expose `metadata()` and
`invoke(...)` nor an object directly exposing both operations. -/
theorem capability_test_total (v : JSVal) (hv : v ≠ .vnull) :
    isComponentE v = .ok (qualifies v) := by
  cases v with
  | vnull => exact absurd rfl hv
  | vundefined => rfl
  | vbool b => rfl
  | vnum n => rfl
  | vstr s => rfl
  | vfn c ps pp r =>
      cases c with
      | false => rfl
      | true => exact isComponentE_class ps pp r
  | vobj props => exact isComponentE_vobj props

/-- C4 witness: an arrow function (non-constructible, no prototype)
returns `false` without raising. -/
theorem capability_test_total_witness :
    isComponentE (.vfn false [] [] default) = .ok (qualifies (.vfn false [] [] default)) :=
  capability_test_total (.vfn false [] [] default) fun h => JSVal.noConfusion h

/-! ## Missing directory and validity (claim C6) -/

/-- C6: assembling from a directory that does not exist logs an error and
returns a registry with no components and no collections, raising no
fault; `isValid` on that registry is `false`; and in general `isValid` is
`true` exactly when the node has at least one component or at least one
collection. -/
theorem assemble_missing_dir (parent : Option Unit) (fs : FsNode) (dir cwd : String)
    (h : lookupPath fs (fullPath cwd dir) = none) :
    assemble parent fs dir cwd
      = .ok (.mk [] [] [.error ("Invalid component directory " ++ fullPath cwd dir)]) ∧
    (Registry.mk [] [] [.error ("Invalid component directory " ++ fullPath cwd dir)]).isValid
      = false ∧
    (∀ r : Registry, r.isValid = true ↔ r.components ≠ [] ∨ r.collections ≠ []) := by
  refine ⟨?_, rfl, ?_⟩
  · rw [assemble, buildFromFs, h]
  · intro r
    rcases r with ⟨comps, colls, lg⟩
    cases comps <;> cases colls <;>
      simp [Registry.isValid, jsOrNat, Registry.components, Registry.collections]

/-- C6 witness: an empty root with no `missing` entry. -/
theorem assemble_missing_dir_witness :
    assemble none (FsNode.dir []) "missing" ""
      = .ok (.mk [] [] [.error ("Invalid component directory " ++ fullPath "" "missing")]) :=
  (assemble_missing_dir none (FsNode.dir []) "missing" "" rfl).1

/-! ## Falsy and unknown collection names (claim C10) -/

/-- C10: the empty string is falsy, so `getRegistry ""` returns the node
itself and `getMetadata ""` returns the node's own metadata with no
error; only a non-empty unknown name yields the absent registry, and the
empty sequence with a logged error. -/
theorem falsy_collection_name (r : Registry) (hr : HRegistry) (σ : List MetaObj) :
    r.getRegistry (some "") = some r ∧
    hr.getRegistry (some "") = some hr ∧
    hr.getMetadata (some "") σ = hr.getMetadata none σ ∧
    (∀ s, s ≠ "" → mapHas r.collections s = false → r.getRegistry (some s) = none) ∧
    (∀ s, s ≠ "" → mapHas hr.collections s = false →
        hr.getMetadata (some s) σ
          = ([], σ, [.error ("Invalid registry requested " ++ s)])) := by
  refine ⟨?_, ?_, ?_, ?_, ?_⟩
  · simp [Registry.getRegistry, truthyStr]
  · simp [HRegistry.getRegistry, truthyStr]
  · simp [HRegistry.getMetadata, HRegistry.getRegistry, truthyStr]
  · intro s hs hh
    simp [Registry.getRegistry, truthyStr, hs, mapGet_eq_none_of_not_mapHas hh]
  · intro s hs hh
    simp [HRegistry.getMetadata, HRegistry.getRegistry, truthyStr, hs,
      mapGet_eq_none_of_not_mapHas hh]

/-! ## The two-level collection cap (claims C2, C9) -/

theorem scanAppend_colls (a b : ScanOut) : (scanAppend a b).colls = a.colls ++ b.colls := rfl

theorem scanAppend_comps (a b : ScanOut) : (scanAppend a b).comps = a.comps ++ b.comps := rfl

theorem scanAppend_log (a b : ScanOut) : (scanAppend a b).log = a.log ++ b.log := rfl

/-- With collection grouping off, a scan attaches no collection at all:
`_addCollection` is only reachable under `withCollections`. -/
theorem digestList_colls_false :
    ∀ (n : Nat) (l : List (String × FsNode)), sizeOf l ≤ n →
      (digestList l false).colls = [] := by
  intro n
  induction n with
  | zero =>
      intro l h
      exfalso
      cases l <;> simp at h
  | succ n ih =>
      intro l h
      cases l with
      | nil => simp [digestList, ScanOut.empty]
      | cons e rest =>
          obtain ⟨nm, node⟩ := e
          simp only [List.cons.sizeOf_spec, Prod.mk.sizeOf_spec] at h
          rw [digestList, scanAppend_colls, List.append_eq_nil]
          constructor
          · cases node with
            | file mod => simp [digestFs]
            | dir es =>
                rw [digestFs]
                simp only [Bool.false_eq_true, if_neg, ite_false]
                rw [scanEntries]
                refine ih _ ?_
                rw [sizeOf_filesFirst]
                refine le_trans (sizeOf_filter_le _ _) ?_
                simp only [FsNode.dir.sizeOf_spec] at h
                omega
          · refine ih rest ?_
            omega

theorem digestList_colls_nil (l : List (String × FsNode)) :
    (digestList l false).colls = [] :=
  digestList_colls_false (sizeOf l) l le_rfl

theorem scanEntries_colls_nil (es : List (String × FsNode)) :
    (scanEntries es false).colls = [] := by
  rw [scanEntries]
  exact digestList_colls_nil _

theorem digestFs_colls_nil (nm : String) (node : FsNode) :
    (digestFs nm node false).colls = [] := by
  cases node with
  | file mod => simp [digestFs]
  | dir es =>
      rw [digestFs]
      simp only [Bool.false_eq_true, if_neg, ite_false]
      exact scanEntries_colls_nil es

/-- Every collection a scan attaches is itself collection-free (it was
assembled with a non-null parent, hence with grouping off). -/
theorem digestList_colls_flat :
    ∀ (l : List (String × FsNode)) (w : Bool) (p : String × Registry),
      p ∈ (digestList l w).colls → p.2.collections = [] := by
  intro l
  induction l with
  | nil =>
      intro w p h
      simp [digestList, ScanOut.empty] at h
  | cons e rest ih =>
      intro w p h
      rw [digestList, scanAppend_colls, List.mem_append] at h
      rcases h with h | h
      · obtain ⟨nm, node⟩ := e
        cases node with
        | file mod => simp [digestFs] at h
        | dir es =>
            cases w with
            | false =>
                rw [digestFs_colls_nil] at h
                simp at h
            | true =>
                rw [digestFs] at h
                simp only [if_pos, ite_true, List.mem_singleton] at h
                rw [h]
                rw [registryOfScan_collections, scanEntries_colls_nil]
                rfl
      · exact ih w p h

theorem scanEntries_colls_flat (es : List (String × FsNode)) (w : Bool)
    (p : String × Registry) (h : p ∈ (scanEntries es w).colls) :
    p.2.collections = [] := by
  rw [scanEntries] at h
  exact digestList_colls_flat _ w p h

theorem digestItem_colls {fs : FsNode} {baseDir : String} {item : JSVal} {s : ScanOut}
    (h : digestItem fs baseDir item = .ok s) : s.colls = [] := by
  cases item with
  | vnull =>
      rw [show digestItem fs baseDir .vnull = .error () from rfl] at h
      exact Except.noConfusion h
  | vundefined =>
      rw [show digestItem fs baseDir .vundefined = .ok ScanOut.empty from rfl] at h
      injection h with h
      rw [← h]
      rfl
  | vbool b =>
      rw [show digestItem fs baseDir (.vbool b) = .ok ScanOut.empty from rfl] at h
      injection h with h
      rw [← h]
      rfl
  | vnum n =>
      rw [show digestItem fs baseDir (.vnum n) = .ok ScanOut.empty from rfl] at h
      injection h with h
      rw [← h]
      rfl
  | vfn c ps pp r =>
      cases c with
      | false =>
          rw [show digestItem fs baseDir (.vfn false ps pp r) = .ok ScanOut.empty from rfl] at h
          injection h with h
          rw [← h]
          rfl
      | true =>
          cases hb : hasOp pp "metadata" && hasOp pp "invoke" with
          | true =>
              simp only [digestItem, isComponentE_class, hb, Bind.bind, Except.bind,
                ite_true, pure, Except.pure] at h
              injection h with h
              rw [← h]
          | false =>
              simp only [digestItem, isComponentE_class, hb, Bind.bind, Except.bind,
                Bool.false_eq_true, ite_false, pure, Except.pure] at h
              injection h with h
              rw [← h]
              rfl
  | vobj props =>
      cases hb : hasOp props "metadata" && hasOp props "invoke" with
      | true =>
          simp only [digestItem, isComponentE_vobj, hb, Bind.bind, Except.bind,
            ite_true, pure, Except.pure] at h
          injection h with h
          rw [← h]
      | false =>
          cases hf : exceptFilter isComponentE (props.map (·.2)) with
          | error e =>
              simp only [digestItem, isComponentE_vobj, hb, hf, Bind.bind, Except.bind,
                Bool.false_eq_true, ite_false] at h
              exact Except.noConfusion h
          | ok cs =>
              simp only [digestItem, isComponentE_vobj, hb, hf, Bind.bind, Except.bind,
                Bool.false_eq_true, ite_false, pure, Except.pure] at h
              injection h with h
              rw [← h]
  | vstr str =>
      simp only [digestItem, isComponentE_vstr, Bind.bind, Except.bind,
        Bool.false_eq_true, ite_false] at h
      rw [digestPathStr] at h
      cases h1 : lookupPath fs (fullPath baseDir str) with
      | some node =>
          rw [h1] at h
          injection h with h
          rw [← h]
          exact digestFs_colls_nil _ _
      | none =>
          rw [h1] at h
          cases h2 : lookupPath fs (fullPath baseDir str ++ ".js") with
          | some node =>
              rw [h2] at h
              injection h with h
              rw [← h]
              exact digestFs_colls_nil _ _
          | none => rw [h2] at h; exact Except.noConfusion h

theorem mapExcept_digestItem_colls {fs : FsNode} {baseDir : String} :
    ∀ (list : List JSVal) (results : List ScanOut),
      mapExcept (digestItem fs baseDir) list = .ok results → ∀ s ∈ results, s.colls = [] := by
  intro list
  induction list with
  | nil =>
      intro results h s hs
      rw [mapExcept] at h
      injection h with h
      rw [← h] at hs
      simp at hs
  | cons a t ih =>
      intro results h s hs
      rw [mapExcept] at h
      cases ha : digestItem fs baseDir a with
      | error e =>
          simp only [Bind.bind, Except.bind, ha] at h
          exact Except.noConfusion h
      | ok s0 =>
          cases ht : mapExcept (digestItem fs baseDir) t with
          | error e =>
              simp only [Bind.bind, Except.bind, ha, ht] at h
              exact Except.noConfusion h
          | ok rest =>
              simp only [Bind.bind, Except.bind, ha, ht, pure, Except.pure] at h
              injection h with h
              rw [← h] at hs
              rcases List.mem_cons.mp hs with hs | hs
              · rw [hs]; exact digestItem_colls ha
              · exact ih rest ht s hs

theorem foldl_scanAppend_colls_nil :
    ∀ (results : List ScanOut) (init : ScanOut),
      (∀ s ∈ results, s.colls = []) → (results.foldl scanAppend init).colls = init.colls := by
  intro results
  induction results with
  | nil => intro init _; rfl
  | cons s t ih =>
      intro init h
      rw [List.foldl_cons, ih _ fun x hx => h x (List.mem_cons_of_mem _ hx)]
      rw [scanAppend_colls, h s (List.mem_cons_self _ _), List.append_nil]

theorem scanAppend_empty_left (s : ScanOut) : scanAppend ScanOut.empty s = s := by
  cases s
  simp [scanAppend, ScanOut.empty]

theorem assemble_ok_collections_flat (parent : Option Unit) (fs : FsNode)
    (dir cwd : String) (r : Registry) (h : assemble parent fs dir cwd = .ok r) :
    ∀ p ∈ r.collections, p.2.collections = [] := by
  intro p hp
  rw [assemble] at h
  cases hl : lookupPath fs (fullPath cwd dir) with
  | none =>
      rw [buildFromFs.eq_def, hl] at h
      injection h with h
      rw [← h] at hp
      simp [Registry.collections] at hp
  | some node =>
      cases node with
      | file mod =>
          rw [buildFromFs.eq_def, hl] at h
          exact Except.noConfusion h
      | dir es =>
          rw [buildFromFs.eq_def, hl] at h
          injection h with h
          rw [← h] at hp
          rw [registryOfScan_collections] at hp
          rcases mem_foldl_mapSet hp with h1 | h1
          · simp at h1
          · rcases List.mem_map.mp h1 with ⟨q, hq, he⟩
            rw [← he]
            exact scanEntries_colls_flat es _ q hq

theorem assemble_child_collections (u : Unit) (fs : FsNode) (dir cwd : String)
    (r : Registry) (h : assemble (some u) fs dir cwd = .ok r) : r.collections = [] := by
  rw [assemble] at h
  cases hl : lookupPath fs (fullPath cwd dir) with
  | none =>
      rw [buildFromFs.eq_def, hl] at h
      injection h with h
      rw [← h]
      rfl
  | some node =>
      cases node with
      | file mod =>
          rw [buildFromFs.eq_def, hl] at h
          exact Except.noConfusion h
      | dir es =>
          rw [buildFromFs.eq_def, hl] at h
          injection h with h
          rw [← h]
          rw [show (some u).isNone = false from rfl] at *
          rw [registryOfScan_collections, scanEntries_colls_nil]
          rfl

theorem create_ok_collections (fs : FsNode) (items : List JSVal) (cwd : String)
    (r : Registry) (h : create fs items cwd = .ok r) : r.collections = [] := by
  rw [create, buildFromItems] at h
  cases hm : mapExcept (digestItem fs cwd) items with
  | error e =>
      simp only [Bind.bind, Except.bind, hm] at h
      exact Except.noConfusion h
  | ok results =>
      simp only [Bind.bind, Except.bind, hm, pure, Except.pure] at h
      injection h with h
      rw [← h]
      rw [registryOfScan_collections,
        foldl_scanAppend_colls_nil results ScanOut.empty
          (mapExcept_digestItem_colls items results hm)]
      rfl

/-- C2: for every registry built by `assemble` or `create`, every child
registry in its collections map has an empty collections map of its own
(the two-level cap); grouping is enabled only for a null parent, so an
`assemble` with a non-null parent — as every nested `_addCollection`
call is — produces no collections at all, and neither does `create`. -/
theorem collection_hierarchy_two_levels :
    (∀ (parent : Option Unit) (fs : FsNode) (dir cwd : String) (r : Registry),
        assemble parent fs dir cwd = .ok r → ∀ p ∈ r.collections, p.2.collections = []) ∧
    (∀ (u : Unit) (fs : FsNode) (dir cwd : String) (r : Registry),
        assemble (some u) fs dir cwd = .ok r → r.collections = []) ∧
    (∀ (fs : FsNode) (items : List JSVal) (cwd : String) (r : Registry),
        create fs items cwd = .ok r → r.collections = []) :=
  ⟨assemble_ok_collections_flat, assemble_child_collections, create_ok_collections⟩

/-! ## `create` and the string-item path rule (claim C9) -/

/-- C9 counterexample: `fullPath` keeps a string whenever it merely
*contains* the base directory as a substring (`~dirname.indexOf(cwd)`),
not only when it lies under it: the relative path `"x/base/y"` does not
lie under `"/base"`, yet `create` would delegate it unresolved instead
of joining it to the base directory as the claim requires. -/
theorem create_path_rule_counterexample :
    fullPath "/base" "x/base/y" = "x/base/y" ∧
    fullPathSpec "/base" "x/base/y" = "/base/x/base/y" ∧
    fullPath "/base" "x/base/y" ≠ fullPathSpec "/base" "x/base/y" := by
  refine ⟨rfl, rfl, ?_⟩
  intro hc
  rw [show fullPath "/base" "x/base/y" = "x/base/y" from rfl,
    show fullPathSpec "/base" "x/base/y" = "/base/x/base/y" from rfl] at hc
  exact absurd hc (by decide)

/-- C9 (amended): `create` resolves every string item through `fullPath`
(joined to the base directory unless the string already *contains* it as
a substring) and delegates it to `__digestPath` with collection grouping
disabled; the resulting registry always has an empty collections map;
items of other shapes that fail the capability test and are neither
objects nor strings contribute nothing; and resolved components are
registered in item order. -/
theorem create_flat_registry :
    (∀ (fs : FsNode) (items : List JSVal) (cwd : String) (r : Registry),
        create fs items cwd = .ok r → r.collections = []) ∧
    (∀ (fs : FsNode) (cwd s : String) (r : Registry),
        create fs [.vstr s] cwd = .ok r →
          ∃ out, digestPathStr fs (fullPath cwd s) false = .ok out ∧
            r = registryOfScan out) ∧
    (∀ (fs : FsNode) (cwd : String) (n : Int),
        create fs [.vnum n] cwd = .ok (.mk [] [] [])) ∧
    (∀ (fs : FsNode) (cwd : String) (b : Bool),
        create fs [.vbool b] cwd = .ok (.mk [] [] [])) ∧
    (∀ (fs : FsNode) (cwd : String) (v1 v2 : JSVal) (m1 m2 : MetaObj),
        isComponentE v1 = .ok true → callMetadata v1 = some m1 →
        isComponentE v2 = .ok true → callMetadata v2 = some m2 →
        m1.name ≠ m2.name →
        create fs [v1, v2] cwd
          = .ok (.mk [(m1.name, ⟨v1, some m1⟩), (m2.name, ⟨v2, some m2⟩)] [] [])) := by
  refine ⟨create_ok_collections, ?_, ?_, ?_, ?_⟩
  · intro fs cwd s r h
    rw [create, buildFromItems] at h
    have hd : digestItem fs cwd (.vstr s) = digestPathStr fs (fullPath cwd s) false := rfl
    cases hout : digestPathStr fs (fullPath cwd s) false with
    | error e =>
        simp only [mapExcept, hd, hout, Bind.bind, Except.bind] at h
        exact Except.noConfusion h
    | ok out =>
        simp only [mapExcept, hd, hout, Bind.bind, Except.bind, pure, Except.pure] at h
        rw [List.foldl_cons, List.foldl_nil, scanAppend_empty_left] at h
        injection h with h
        exact ⟨out, rfl, h.symm⟩
  · intro fs cwd n
    rfl
  · intro fs cwd b
    rfl
  · intro fs cwd v1 v2 m1 m2 h1 hm1 h2 hm2 hne
    have hd1 : digestItem fs cwd v1 = .ok ⟨[⟨v1, some m1⟩], [], []⟩ := by
      rw [digestItem.eq_def, h1]
      simp only [Bind.bind, Except.bind, ite_true, pure, Except.pure, componentFactory, hm1]
    have hd2 : digestItem fs cwd v2 = .ok ⟨[⟨v2, some m2⟩], [], []⟩ := by
      rw [digestItem.eq_def, h2]
      simp only [Bind.bind, Except.bind, ite_true, pure, Except.pure, componentFactory, hm2]
    rw [create, buildFromItems]
    simp only [mapExcept, hd1, hd2, Bind.bind, Except.bind, pure, Except.pure]
    rw [List.foldl_cons, List.foldl_cons, List.foldl_nil, scanAppend_empty_left]
    rw [registryOfScan]
    simp only [scanAppend, List.cons_append, List.nil_append, List.append_nil, List.foldl_nil]
    rw [Registry.registerAll]
    simp only [List.foldl_cons, List.foldl_nil]
    rw [register_fresh (r := Registry.mk [] [] []) (c := ⟨v1, some m1⟩) rfl rfl]
    rw [register_fresh (c := ⟨v2, some m2⟩) rfl
      (by simp [Registry.isComponent, Registry.components, mapHas]
          intro hcc
          exact hne hcc)]
    rfl

/-! ## Module resolution (claims C8, C5) -/

theorem resolveComponents_component {m : JSVal} (hc : isComponentE m = .ok true) :
    resolveComponents (.ok m) = ([m], []) := by
  rw [resolveComponents.eq_def]
  simp [Bind.bind, Except.bind, hc, pure, Except.pure]

theorem exceptFilter_chars (cs : List Char) :
    exceptFilter isComponentE (cs.map fun c => JSVal.vstr (String.mk [c])) = .ok [] := by
  induction cs with
  | nil => rfl
  | cons c t ih =>
      rw [List.map_cons, exceptFilter]
      simp [Bind.bind, Except.bind, isComponentE_vstr, ih, pure, Except.pure]

/-- C8 counterexample: an object export with a null-valued property does
*not* yield the subset of its property values passing the Capability
Test.  The source applies `Object.values(mod).filter(isComponent)`
inside the `try`; `isComponent(null)` throws (C4), the catch logs it,
and the module yields zero components — although the object itself fails
the test cleanly and its `"a"` value passes it. -/
theorem resolve_object_null_counterexample :
    resolveComponents (.ok (.vobj [("a", sampleComponent "a" ""), ("b", .vnull)]))
      = ([], [.error "component load failed"]) ∧
    isComponentE (.vobj [("a", sampleComponent "a" ""), ("b", .vnull)]) = .ok false ∧
    isComponentE (sampleComponent "a" "") = .ok true ∧
    (resolveComponents (.ok (.vobj [("a", sampleComponent "a" ""), ("b", .vnull)]))).1
      ≠ [sampleComponent "a" ""] := by
  refine ⟨rfl, rfl, rfl, ?_⟩
  intro h
  rw [show (resolveComponents
      (.ok (.vobj [("a", sampleComponent "a" ""), ("b", .vnull)]))).1
    = [] from rfl] at h
  exact List.noConfusion h

/-- C8 (amended): a successfully loaded module yields exactly its
primary export when that passes the capability test; otherwise the
export — of any type, the source never checks `typeof` here — goes
through `Object.values` and the subset of those values passing the test
is yielded, *provided* the test throws on none of them (a null-valued
property makes the whole filter throw; the catch logs it and the module
yields zero components).  Primitive exports therefore yield none, the
`{a, b, c}` example yields exactly 2, and a function export carrying a
component as an own property yields that component. -/
theorem resolve_module_exports :
    (∀ m : JSVal, isComponentE m = .ok true → resolveComponents (.ok m) = ([m], [])) ∧
    (∀ (m : JSVal) (vs l : List JSVal),
        isComponentE m = .ok false → objectValuesE m = .ok vs →
        exceptFilter isComponentE vs = .ok l →
        resolveComponents (.ok m) = (l, [])) ∧
    (∀ (m : JSVal) (vs : List JSVal),
        isComponentE m = .ok false → objectValuesE m = .ok vs →
        exceptFilter isComponentE vs = .error () →
        resolveComponents (.ok m) = ([], [.error "component load failed"])) ∧
    (∀ n : Int, (resolveComponents (.ok (.vnum n))).1 = []) ∧
    (∀ b : Bool, (resolveComponents (.ok (.vbool b))).1 = []) ∧
    (∀ s : String, (resolveComponents (.ok (.vstr s))).1 = []) ∧
    resolveComponents (.ok (.vobj
        [("a", sampleComponent "a" ""), ("b", sampleComponent "b" ""),
         ("c", .vstr "not a component")]))
      = ([sampleComponent "a" "", sampleComponent "b" ""], []) ∧
    resolveComponents (.ok (.vfn false [("A", sampleComponent "a" "")] [] default))
      = ([sampleComponent "a" ""], []) := by
  refine ⟨fun m => resolveComponents_component, ?_, ?_, ?_, ?_, ?_, rfl, rfl⟩
  · intro m vs l hfalse hvals hfilter
    rw [resolveComponents.eq_def]
    simp [Bind.bind, Except.bind, hfalse, hvals, hfilter, pure, Except.pure]
  · intro m vs hfalse hvals hfilter
    rw [resolveComponents.eq_def]
    simp [Bind.bind, Except.bind, hfalse, hvals, hfilter, pure, Except.pure]
  · intro n
    rfl
  · intro b
    rfl
  · intro str
    rw [resolveComponents.eq_def]
    simp [Bind.bind, Except.bind, isComponentE_vstr, objectValuesE,
      exceptFilter_chars, pure, Except.pure]

/-- C5: a file whose load raises contributes zero components and a
logged error, and the scan continues: a directory with one raising file
and one valid component file assembles, with no fault, to a registry
holding exactly the valid component (plus the logged load error). -/
theorem module_load_failure_resilience (m : JSVal) (md : MetaObj)
    (hc : isComponentE m = .ok true) (hm : callMetadata m = some md) :
    resolveComponents (.error ()) = ([], [.error "component load failed"]) ∧
    assemble none
        (FsNode.dir [("components",
          FsNode.dir [("bad.js", .file (.error ())), ("good.js", .file (.ok m))])])
        "components" ""
      = .ok (.mk [(md.name, ⟨m, some md⟩)] [] [.error "component load failed"]) := by
  refine ⟨rfl, ?_⟩
  rw [assemble, show fullPath "" "components" = "components" from rfl,
    buildFromFs.eq_def,
    show lookupPath
        (FsNode.dir [("components",
          FsNode.dir [("bad.js", FsNode.file (.error ())), ("good.js", FsNode.file (.ok m))])])
        "components"
      = some (FsNode.dir [("bad.js", FsNode.file (.error ())),
          ("good.js", FsNode.file (.ok m))]) from rfl]
  show Except.ok (registryOfScan (scanEntries
      [("bad.js", FsNode.file (.error ())), ("good.js", FsNode.file (.ok m))] true)) = _
  rw [scanEntries,
    show filesFirst (List.filter (fun e => extOK e.1)
        [("bad.js", FsNode.file (.error ())), ("good.js", FsNode.file (.ok m))])
      = [("bad.js", FsNode.file (.error ())), ("good.js", FsNode.file (.ok m))] from rfl]
  simp only [digestList, digestFs]
  rw [show resolveComponents (.error ()) = ([], [.error "component load failed"]) from rfl,
    resolveComponents_component hc]
  simp only [scanAppend, ScanOut.empty, List.map_cons, List.map_nil, List.cons_append,
    List.nil_append, List.append_nil]
  rw [registryOfScan]
  simp only [List.foldl_nil]
  rw [Registry.registerAll]
  simp only [List.foldl_cons, List.foldl_nil]
  rw [register_fresh (r := Registry.mk [] [] [.error "component load failed"])
      (c := componentFactory m) (m := md) (by simp [componentFactory, hm]) rfl]
  simp [componentFactory, hm, Registry.components, Registry.collections, Registry.log]

/-- C5 witness: a concrete valid component next to a raising file. -/
theorem module_load_failure_resilience_witness :
    assemble none
        (FsNode.dir [("components",
          FsNode.dir [("bad.js", .file (.error ())),
            ("good.js", .file (.ok (sampleComponent "good" "t")))])])
        "components" ""
      = .ok (.mk [("good", ⟨sampleComponent "good" "t", some ⟨"good", [("tag", "t")]⟩⟩)] []
          [.error "component load failed"]) :=
  (module_load_failure_resilience (sampleComponent "good" "t") ⟨"good", [("tag", "t")]⟩
    rfl rfl).2

/-! ## Merge (claim C3) -/

theorem metaName_eq {c : Component} {mm : MetaObj} (h : c.meta = some mm) :
    metaName c = mm.name := by
  rw [metaName, h]
  rfl

theorem mapHas_append (m1 m2 : List (String × α)) (k : String) :
    mapHas (m1 ++ m2) k = (mapHas m1 k || mapHas m2 k) := by
  simp [mapHas, List.any_append]

theorem mapGet_append_of_not_has {m1 : List (String × α)} {k : String}
    (h : mapHas m1 k = false) (m2 : List (String × α)) :
    mapGet (m1 ++ m2) k = mapGet m2 k := by
  induction m1 with
  | nil => rfl
  | cons p t ih =>
      rw [mapHas, List.any_cons, Bool.or_eq_false_iff] at h
      rw [List.cons_append, mapGet, List.find?, h.1]
      exact ih h.2

theorem register_eq_parts (c : Component) (c₂ : List (String × Component))
    (k₁ k₂ : List (String × Registry)) (l₂ : List LogEntry) :
    ((Registry.mk c₂ k₁ l₂).register c).components
        = ((Registry.mk c₂ k₂ l₂).register c).components ∧
    ((Registry.mk c₂ k₁ l₂).register c).log = ((Registry.mk c₂ k₂ l₂).register c).log := by
  rcases hm : c.meta with _ | mm
  · simp [Registry.register, hm, Registry.components, Registry.log]
  · by_cases hd : mapHas c₂ mm.name = true <;>
      simp [Registry.register, hm, Registry.isComponent, Registry.components, hd,
        Registry.log, Registry.collections]

/-- `__register` reads only the target's components and log; two targets
agreeing there stay in agreement under any registration sequence. -/
theorem registerAll_congr (vals : List Component) :
    ∀ {r₁ r₂ : Registry}, r₁.components = r₂.components → r₁.log = r₂.log →
      (r₁.registerAll vals).components = (r₂.registerAll vals).components ∧
      (r₁.registerAll vals).log = (r₂.registerAll vals).log := by
  induction vals with
  | nil => intro r₁ r₂ hc hl; exact ⟨hc, hl⟩
  | cons c t ih =>
      intro r₁ r₂ hc hl
      rcases r₁ with ⟨c₁, k₁, l₁⟩
      rcases r₂ with ⟨c₂, k₂, l₂⟩
      simp only [Registry.components] at hc
      simp only [Registry.log] at hl
      subst hc
      subst hl
      rw [show ((Registry.mk c₁ k₁ l₁).registerAll (c :: t))
            = ((Registry.mk c₁ k₁ l₁).register c).registerAll t from rfl,
        show ((Registry.mk c₁ k₂ l₁).registerAll (c :: t))
            = ((Registry.mk c₁ k₂ l₁).register c).registerAll t from rfl]
      obtain ⟨h1, h2⟩ := register_eq_parts c c₁ k₁ k₂ l₁
      exact ih h1 h2

theorem registerAll_fresh (vals : List Component) :
    ∀ (r : Registry),
      (∀ c ∈ vals, ∃ mm, c.meta = some mm) →
      (vals.map metaName).Nodup →
      (∀ c ∈ vals, r.isComponent (metaName c) = false) →
      (r.registerAll vals).components = r.components ++ vals.map (fun c => (metaName c, c)) ∧
      (r.registerAll vals).log = r.log ∧
      (r.registerAll vals).collections = r.collections := by
  induction vals with
  | nil => intro r _ _ _; simp [Registry.registerAll]
  | cons c t ih =>
      intro r hsome hnodup hfresh
      obtain ⟨mm, hmm⟩ := hsome c (List.mem_cons_self _ _)
      have hrc : r.register c
          = .mk (r.components ++ [(metaName c, c)]) r.collections r.log := by
        rw [metaName_eq hmm]
        exact register_fresh hmm (by rw [← metaName_eq hmm]; exact hfresh c (List.mem_cons_self _ _))
      rw [Registry.registerAll, List.foldl_cons,
        show List.foldl Registry.register (r.register c) t = (r.register c).registerAll t
          from rfl]
      rw [List.map_cons] at hnodup
      have hnd := List.nodup_cons.mp hnodup
      have ih2 := ih (r.register c)
        (fun c' hc' => hsome c' (List.mem_cons_of_mem _ hc'))
        hnd.2
        (fun c' hc' => by
          rw [hrc]
          show mapHas (r.components ++ [(metaName c, c)]) (metaName c') = false
          rw [mapHas_append]
          have h1 : mapHas r.components (metaName c') = false :=
            hfresh c' (List.mem_cons_of_mem _ hc')
          have h2 : mapHas [(metaName c, c)] (metaName c') = false := by
            have hne : metaName c ≠ metaName c' := by
              intro he
              exact hnd.1 (he ▸ List.mem_map_of_mem metaName hc')
            simp [mapHas, hne]
          rw [h1, h2]
          rfl)
      refine ⟨?_, ?_, ?_⟩
      · rw [ih2.1, hrc]
        simp [Registry.components, List.append_assoc]
      · rw [ih2.2.1, hrc]
        rfl
      · rw [ih2.2.2, hrc]
        rfl

theorem mapGet_of_mem_nodup :
    ∀ (vals : List Component), ((vals.map metaName).Nodup) →
      ∀ {c : Component}, c ∈ vals →
        mapGet (vals.map fun c' => (metaName c', c')) (metaName c) = some c := by
  intro vals
  induction vals with
  | nil => intro _ c hc; simp at hc
  | cons v t ih =>
      intro hnodup c hc
      rw [List.map_cons] at hnodup
      have hnd := List.nodup_cons.mp hnodup
      rcases List.mem_cons.mp hc with hc | hc
      · rw [hc]
        simp [mapGet]
      · have hne : metaName v ≠ metaName c := by
          intro he
          exact hnd.1 (he ▸ List.mem_map_of_mem metaName hc)
        rw [List.map_cons, mapGet, List.find?,
          show (decide (metaName v = metaName c)) = false by simp [hne]]
        exact ih hnd.2 hc

/-- Registering a fresh, duplicate-free batch makes every element
retrievable under its metadata name. -/
theorem registerAll_getComponent {r : Registry} {vals : List Component}
    (hsome : ∀ c ∈ vals, ∃ mm, c.meta = some mm)
    (hnodup : (vals.map metaName).Nodup)
    (hfresh : ∀ c ∈ vals, r.isComponent (metaName c) = false) :
    ∀ c ∈ vals, (r.registerAll vals).getComponent (metaName c) = some c := by
  intro c hc
  obtain ⟨hcomp, -, -⟩ := registerAll_fresh vals r hsome hnodup hfresh
  rw [Registry.getComponent, hcomp,
    mapGet_append_of_not_has (hfresh c hc), mapGet_of_mem_nodup vals hnodup hc]

theorem mergeFold_components_log (rec : Bool) :
    ∀ (l : List (String × Component)) (a : Registry),
      (l.foldl (Registry.mergeStep rec) a).components
          = (a.registerAll (l.map (·.2))).components ∧
      (l.foldl (Registry.mergeStep rec) a).log = (a.registerAll (l.map (·.2))).log := by
  intro l
  induction l with
  | nil => intro a; exact ⟨rfl, rfl⟩
  | cons p t ih =>
      intro a
      rw [List.foldl_cons, List.map_cons,
        show (a.registerAll (p.2 :: t.map (·.2)))
            = (a.register p.2).registerAll (t.map (·.2)) from rfl]
      have hstep : (Registry.mergeStep rec a p).components = (a.register p.2).components ∧
          (Registry.mergeStep rec a p).log = (a.register p.2).log := by
        cases rec with
        | true => exact ⟨rfl, rfl⟩
        | false => exact ⟨rfl, rfl⟩
      obtain ⟨ht1, ht2⟩ := ih (Registry.mergeStep rec a p)
      obtain ⟨hc1, hc2⟩ := registerAll_congr (t.map (·.2)) hstep.1 hstep.2
      exact ⟨ht1.trans hc1, ht2.trans hc2⟩

theorem mergeFold_collections :
    ∀ (l : List (String × Component)) (a : Registry),
      (l.foldl (Registry.mergeStep true) a).collections
        = a.collections.map fun q => (q.1, q.2.registerAll (l.map (·.2))) := by
  intro l
  induction l with
  | nil =>
      intro a
      rw [List.foldl_nil]
      have he : ∀ (w : List (String × Registry)),
          List.map (fun q : String × Registry =>
            (q.1, Registry.registerAll q.2 (List.map (fun x : String × Component => x.2) []))) w
            = w := by
        intro w
        induction w with
        | nil => rfl
        | cons x t ih =>
            rw [List.map_cons, ih]
            rfl
      exact (he a.collections).symm
  | cons p t ih =>
      intro a
      rw [List.foldl_cons, ih (Registry.mergeStep true a p)]
      rw [show (Registry.mergeStep true a p).collections
          = (a.register p.2).collections.map fun q => (q.1, q.2.register p.2) from rfl]
      rw [register_collections, List.map_map]
      rw [List.map_cons]
      rfl

theorem merge_components_getComponent (a b : Registry)
    (hsome : ∀ c ∈ b.components.map (·.2), ∃ mm, c.meta = some mm)
    (hnodup : ((b.components.map (·.2)).map metaName).Nodup)
    (hfreshA : ∀ c ∈ b.components.map (·.2), a.isComponent (metaName c) = false) :
    ∀ c ∈ b.components.map (·.2), (a.merge b true).getComponent (metaName c) = some c := by
  intro c hc
  rw [Registry.merge, Registry.getComponent,
    (mergeFold_components_log true b.components a).1]
  exact registerAll_getComponent hsome hnodup hfreshA c hc

theorem mapGet_map_pair (g : (String × Registry) → Registry) :
    ∀ (l : List (String × Registry)) (k : String) (ch : Registry),
      mapGet l k = some ch →
        ∃ q ∈ l, q.2 = ch ∧ mapGet (l.map fun q => (q.1, g q)) k = some (g q) := by
  intro l
  induction l with
  | nil => intro k ch h; exact Option.noConfusion h
  | cons q t ih =>
      intro k ch h
      by_cases hk : q.1 = k
      · refine ⟨q, List.mem_cons_self _ _, ?_, ?_⟩
        · rw [mapGet, List.find?, show (decide (q.1 = k)) = true by simp [hk]] at h
          injection h with h
        · rw [List.map_cons, mapGet, List.find?, show (decide (q.1 = k)) = true by simp [hk]]
          rfl
      · rw [mapGet, List.find?, show (decide (q.1 = k)) = false by simp [hk]] at h
        obtain ⟨q', hq', he', hg'⟩ := ih k ch h
        refine ⟨q', List.mem_cons_of_mem _ hq', he', ?_⟩
        rw [List.map_cons, mapGet, List.find?, show (decide (q.1 = k)) = false by simp [hk]]
        exact hg'

/-- C3: `merge(other, recursive)` registers every component of the other
registry's flat map into this node and, recursively, into every existing
child collection; it never reads the other registry's collections and
never adds a key to this node's collections map.  With fresh,
duplicate-free names, every component of B afterwards appears in
`A.getComponents()` and in every collection's components. -/
theorem merge_propagation (a b : Registry)
    (hsome : ∀ c ∈ b.components.map (·.2), ∃ mm, c.meta = some mm)
    (hnodup : ((b.components.map (·.2)).map metaName).Nodup)
    (hfreshA : ∀ c ∈ b.components.map (·.2), a.isComponent (metaName c) = false)
    (hfreshC : ∀ q ∈ a.collections, ∀ c ∈ b.components.map (·.2),
        q.2.isComponent (metaName c) = false) :
    (∀ c ∈ b.components.map (·.2),
        (a.merge b true).getComponent (metaName c) = some c) ∧
    (a.merge b true).getCollectionNames = a.getCollectionNames ∧
    (∀ nm ch, mapGet a.collections nm = some ch →
        ∃ ch', mapGet (a.merge b true).collections nm = some ch' ∧
          ∀ c ∈ b.components.map (·.2), ch'.getComponent (metaName c) = some c) ∧
    (∀ (b' : Registry) (rec : Bool), b'.components = b.components →
        a.merge b' rec = a.merge b rec) := by
  refine ⟨merge_components_getComponent a b hsome hnodup hfreshA, ?_, ?_, ?_⟩
  · rw [Registry.getCollectionNames, Registry.getCollectionNames, Registry.merge,
      mergeFold_collections b.components a, List.map_map]
    rfl
  · intro nm ch hch
    obtain ⟨q, hq, hq2, hmap⟩ :=
      mapGet_map_pair (fun q => q.2.registerAll (b.components.map (·.2)))
        a.collections nm ch hch
    refine ⟨q.2.registerAll (b.components.map (·.2)), ?_, ?_⟩
    · rw [Registry.merge, mergeFold_collections b.components a]
      exact hmap
    · exact registerAll_getComponent hsome hnodup (hfreshC q hq)
  · intro b' rec hb
    rw [Registry.merge, Registry.merge, hb]

/-- C3 witness: A with collections `c1`, `c2`, B with two fresh
components; after `A.merge(B, true)` both are retrievable at the root
and the collection keys are untouched. -/
theorem merge_propagation_witness :
    (((Registry.mk [] [("c1", .mk [] [] []), ("c2", .mk [] [] [])] []).merge
        (Registry.mk [("bx", componentFactory (sampleComponent "bx" "1")),
          ("by", componentFactory (sampleComponent "by" "2"))] [] []) true).getComponent "bx"
      = some (componentFactory (sampleComponent "bx" "1"))) ∧
    (((Registry.mk [] [("c1", .mk [] [] []), ("c2", .mk [] [] [])] []).merge
        (Registry.mk [("bx", componentFactory (sampleComponent "bx" "1")),
          ("by", componentFactory (sampleComponent "by" "2"))] [] []) true).getCollectionNames
      = ["c1", "c2"]) := by
  have h := merge_propagation
    (Registry.mk [] [("c1", .mk [] [] []), ("c2", .mk [] [] [])] [])
    (Registry.mk [("bx", componentFactory (sampleComponent "bx" "1")),
      ("by", componentFactory (sampleComponent "by" "2"))] [] [])
    (by
      intro c hc
      simp [Registry.components] at hc
      rcases hc with h | h <;> rw [h] <;> exact ⟨_, rfl⟩)
    (by decide)
    (by decide)
    (by decide)
  exact ⟨h.1 (componentFactory (sampleComponent "bx" "1")) (List.mem_cons_self _ _), h.2.1⟩

/-! ## Metadata isolation (claim C7) -/

theorem getD_append_lt :
    ∀ (l l' : List α) (d : α) (i : Nat), i < l.length → (l ++ l').getD i d = l.getD i d := by
  intro l
  induction l with
  | nil => intro l' d i h; simp at h
  | cons a t ih =>
      intro l' d i h
      cases i with
      | zero => rfl
      | succ n => exact ih l' d n (by simpa using h)

theorem getD_set_ne :
    ∀ (l : List α) (a i : Nat) (v d : α), a ≠ i → (l.set a v).getD i d = l.getD i d := by
  intro l
  induction l with
  | nil => intro a i v d _; rfl
  | cons x t ih =>
      intro a i v d hne
      cases a with
      | zero =>
          cases i with
          | zero => exact absurd rfl hne
          | succ n => rfl
      | succ a2 =>
          cases i with
          | zero => rfl
          | succ n => exact ih a2 n v d (fun he => hne (by rw [he]))

theorem getD_append_len :
    ∀ (l l' : List α) (d : α), (l ++ l').getD l.length d = l'.getD 0 d := by
  intro l
  induction l with
  | nil => intro l' d; rfl
  | cons a t ih => intro l' d; exact ih l' d

theorem map_eq_of_mem {l : List α} {f g : α → β} (h : ∀ x ∈ l, f x = g x) :
    l.map f = l.map g := by
  induction l with
  | nil => rfl
  | cons a t ih =>
      rw [List.map_cons, List.map_cons, h a (List.mem_cons_self _ _),
        ih fun x hx => h x (List.mem_cons_of_mem _ hx)]

theorem allocCopies_refs (comps : List (String × HComponent)) :
    ∀ σ : List MetaObj, (allocCopies comps σ).1 = List.range' σ.length comps.length := by
  induction comps with
  | nil => intro σ; rfl
  | cons c t ih =>
      intro σ
      show σ.length :: (allocCopies t (σ ++ [σ.getD c.2.metaAddr default])).1
          = List.range' σ.length (t.length + 1)
      rw [ih (σ ++ [σ.getD c.2.metaAddr default]), List.range'_succ, List.length_append]
      rfl

theorem allocCopies_heap (comps : List (String × HComponent)) :
    ∀ σ : List MetaObj, (∀ p ∈ comps, p.2.metaAddr < σ.length) →
      (allocCopies comps σ).2 = σ ++ comps.map (fun p => σ.getD p.2.metaAddr default) := by
  induction comps with
  | nil => intro σ _; simp [allocCopies]
  | cons c t ih =>
      intro σ hv
      show (allocCopies t (σ ++ [σ.getD c.2.metaAddr default])).2 = _
      have hv1 : ∀ p ∈ t, p.2.metaAddr < (σ ++ [σ.getD c.2.metaAddr default]).length := by
        intro p hp
        rw [List.length_append]
        exact Nat.lt_succ_of_lt (hv p (List.mem_cons_of_mem _ hp))
      rw [ih _ hv1]
      have hmap : t.map
            (fun p => (σ ++ [σ.getD c.2.metaAddr default]).getD p.2.metaAddr default)
          = t.map (fun p => σ.getD p.2.metaAddr default) :=
        map_eq_of_mem fun p hp =>
          getD_append_lt σ _ default _ (hv p (List.mem_cons_of_mem _ hp))
      rw [hmap, List.map_cons, List.append_assoc, List.singleton_append]

theorem map_getD_range' :
    ∀ (copies σ : List MetaObj),
      (List.range' σ.length copies.length).map (fun a => (σ ++ copies).getD a default)
        = copies := by
  intro copies
  induction copies with
  | nil => intro σ; rfl
  | cons c t ih =>
      intro σ
      rw [List.length_cons, List.range'_succ, List.map_cons]
      have h1 : (σ ++ c :: t).getD σ.length default = c := by
        rw [getD_append_len]
        rfl
      have h2 : σ ++ c :: t = (σ ++ [c]) ++ t := by simp
      have h3 : σ.length + 1 = (σ ++ [c]).length := by simp
      rw [h1, h2, h3, ih (σ ++ [c])]

theorem hGetMetadata_none (r : HRegistry) (σ : List MetaObj) :
    r.getMetadata none σ
      = ((allocCopies r.components σ).1, (allocCopies r.components σ).2, []) := by
  rw [HRegistry.getMetadata.eq_def,
    show r.getRegistry none = some r from by simp [HRegistry.getRegistry, truthyStr]]

theorem readVals_eq (r : HRegistry) (σ : List MetaObj)
    (hv : ∀ p ∈ r.components, p.2.metaAddr < σ.length) :
    readVals r σ = r.components.map (fun p => σ.getD p.2.metaAddr default) := by
  rw [readVals, hGetMetadata_none]
  show (allocCopies r.components σ).1.map
      (fun a => (allocCopies r.components σ).2.getD a default) = _
  rw [allocCopies_refs, allocCopies_heap _ _ hv,
    show r.components.length
        = (r.components.map fun p => σ.getD p.2.metaAddr default).length by
      rw [List.length_map]]
  exact map_getD_range' _ σ

/-- C7: `getMetadata` on an unresolvable collection name logs an error
and returns the empty sequence; on success it returns a freshly built
sequence of copies of the components' descriptors, and mutating any cell
of the returned sequence leaves every subsequent `getMetadata` read of
the stored descriptors unchanged. -/
theorem getMetadata_isolation (r : HRegistry) (σ : List MetaObj)
    (hvalid : ∀ p ∈ r.components, p.2.metaAddr < σ.length) :
    (∀ s, s ≠ "" → mapHas r.collections s = false →
        r.getMetadata (some s) σ
          = ([], σ, [.error ("Invalid registry requested " ++ s)])) ∧
    readVals r σ = r.components.map (fun p => σ.getD p.2.metaAddr default) ∧
    (∀ a ∈ (r.getMetadata none σ).1, ∀ v : MetaObj,
        readVals r (((r.getMetadata none σ).2.1).set a v) = readVals r σ) := by
  refine ⟨?_, readVals_eq r σ hvalid, ?_⟩
  · intro s hs hh
    rw [HRegistry.getMetadata.eq_def,
      show r.getRegistry (some s) = none from by
        simp [HRegistry.getRegistry, truthyStr, hs, mapGet_eq_none_of_not_mapHas hh]]
    rfl
  · intro a ha v
    rw [hGetMetadata_none] at ha
    rw [allocCopies_refs] at ha
    have hle : σ.length ≤ a := by
      obtain ⟨i, hi, he⟩ := List.mem_range'.mp ha
      omega
    rw [hGetMetadata_none]
    show readVals r (((allocCopies r.components σ).2).set a v) = readVals r σ
    have hlen : (((allocCopies r.components σ).2).set a v).length
        = (allocCopies r.components σ).2.length := List.length_set _ _ _
    have hlen2 : σ.length ≤ (allocCopies r.components σ).2.length := by
      rw [allocCopies_heap _ _ hvalid, List.length_append]
      exact Nat.le_add_right _ _
    have hv2 : ∀ p ∈ r.components,
        p.2.metaAddr < (((allocCopies r.components σ).2).set a v).length := by
      intro p hp
      rw [hlen]
      exact Nat.lt_of_lt_of_le (hvalid p hp) hlen2
    rw [readVals_eq r _ hv2, readVals_eq r σ hvalid]
    refine map_eq_of_mem fun p hp => ?_
    have hpa : a ≠ p.2.metaAddr :=
      fun he => absurd (he ▸ hle) (Nat.not_le_of_lt (hvalid p hp))
    rw [getD_set_ne _ a _ v default hpa, allocCopies_heap _ _ hvalid,
      getD_append_lt σ _ default _ (hvalid p hp)]

/-- C7 witness: one stored descriptor at address 0; the returned copy
lives at address 1, and overwriting it leaves the reads unchanged. -/
theorem getMetadata_isolation_witness :
    readVals (HRegistry.mk [("x", ⟨0⟩)] []) [⟨"x", []⟩] = [⟨"x", []⟩] ∧
    readVals (HRegistry.mk [("x", ⟨0⟩)] [])
        ((((HRegistry.mk [("x", ⟨0⟩)] []).getMetadata none [⟨"x", []⟩]).2.1).set 1 ⟨"mut", []⟩)
      = readVals (HRegistry.mk [("x", ⟨0⟩)] []) [⟨"x", []⟩] := by
  have h := getMetadata_isolation (HRegistry.mk [("x", ⟨0⟩)] []) [⟨"x", []⟩] (by decide)
  exact ⟨h.2.1, h.2.2 1 (by decide) ⟨"mut", []⟩⟩

end BotsSdk
